import Mathlib

/-!
Shallow embedding, over exact rational arithmetic, of the coordinate-geometry
utilities in pymatgen's src/pymatgen/util/coord.py, together with proofs that
settle the claims made about that module.

Modelling conventions:
* NumPy float arrays become lists of rational vectors (List (Fin d → ℚ)) or
  lists of lists of rationals where the shape itself matters.
* np.round rounds half to even (NumPy's rounding mode); it is modelled by
  npRound below.
* np.isclose / np.allclose keep their NumPy default relative tolerance
  rtol = 1e-5 alongside the explicit atol argument, and compare
  |a - b| <= atol + rtol * |b|.
* Python exceptions (ValueError) are modelled with Except String; the message
  constants below mirror the messages raised in the source.
* Absolute tolerances are modelled as scalars (the source also accepts
  per-axis arrays; every claim under study uses a scalar).
-/

namespace Coord

/-- NumPy scalar rounding (np.round with zero decimals): round to the nearest
integer, ties going to the even integer. -/
def npRound (q : ℚ) : ℤ :=
  if q - (⌊q⌋ : ℚ) < 1/2 then ⌊q⌋
  else if 1/2 < q - (⌊q⌋ : ℚ) then ⌊q⌋ + 1
  else if ⌊q⌋ % 2 = 0 then ⌊q⌋ else ⌊q⌋ + 1

/-- NumPy default relative tolerance of np.isclose / np.allclose. -/
def npRtol : ℚ := 1/100000

/-- NumPy default absolute tolerance 1e-8, used wherever the source leaves
atol at its default: np.allclose in Simplex.__eq__, and the is_coord_subset
fallback call inside coord_list_mapping, which passes no atol. -/
def npAtol : ℚ := 1/100000000

/-- Scalar np.isclose with explicit atol and the NumPy default rtol:
|a - b| <= atol + rtol * |b|. -/
def npIsclose (a b atol : ℚ) : Bool := decide (|a - b| ≤ atol + npRtol * |b|)

/-- Zero vector used as the junk default for list indexing (indices are always
in range where it is used). -/
def zeroVec (d : ℕ) : Fin d → ℚ := fun _ => 0

/-- Embedding of find_in_coord_list: indices k of the coordinate list whose
entry differs from coord by strictly less than atol in every component.
Returns [] on an empty list. -/
def find_in_coord_list {d : ℕ} (coord_list : List (Fin d → ℚ)) (coord : Fin d → ℚ)
    (atol : ℚ) : List ℕ :=
  if coord_list.length = 0 then []
  else (List.range coord_list.length).filter
    (fun k => decide (∀ i, |coord_list.getD k (zeroVec d) i - coord i| < atol))

/-- Embedding of in_coord_list: nonemptiness of find_in_coord_list. -/
def in_coord_list {d : ℕ} (coord_list : List (Fin d → ℚ)) (coord : Fin d → ℚ)
    (atol : ℚ) : Bool :=
  decide (0 < (find_in_coord_list coord_list coord atol).length)

/-- Wrapping of a single fractional difference on one axis: subtract the
rounded value when the axis is periodic, leave it alone otherwise. -/
def pbcWrap (fd : ℚ) (p : Bool) : ℚ := if p then fd - (npRound fd : ℚ) else fd

/-- Embedding of pbc_diff: componentwise frac_dist - round(frac_dist) * pbc,
where the boolean pbc flag multiplies as 1 or 0. -/
def pbc_diff (frac_coords1 frac_coords2 : Fin 3 → ℚ) (pbc : Fin 3 → Bool) :
    Fin 3 → ℚ :=
  fun i => (frac_coords1 i - frac_coords2 i) -
    (npRound (frac_coords1 i - frac_coords2 i) : ℚ) * (if pbc i then 1 else 0)

/-- Embedding of find_in_coord_list_pbc: indices whose entry, after wrapping
each periodic axis by the minimum-image rule, is within atol of fcoord. -/
def find_in_coord_list_pbc (fcoord_list : List (Fin 3 → ℚ)) (fcoord : Fin 3 → ℚ)
    (atol : ℚ) (pbc : Fin 3 → Bool) : List ℕ :=
  if fcoord_list.length = 0 then []
  else (List.range fcoord_list.length).filter
    (fun k => decide (∀ i, |pbcWrap (fcoord_list.getD k (zeroVec 3) i - fcoord i) (pbc i)| < atol))

/-- Embedding of in_coord_list_pbc: nonemptiness of find_in_coord_list_pbc. -/
def in_coord_list_pbc (fcoord_list : List (Fin 3 → ℚ)) (fcoord : Fin 3 → ℚ)
    (atol : ℚ) (pbc : Fin 3 → Bool) : Bool :=
  decide (0 < (find_in_coord_list_pbc fcoord_list fcoord atol pbc).length)

/-- Embedding of is_coord_subset: every point of subset strictly matches
(componentwise, < atol) some point of superset. -/
def is_coord_subset {d : ℕ} (subset superset : List (Fin d → ℚ)) (atol : ℚ) : Bool :=
  subset.all (fun p => superset.any (fun q => decide (∀ i, |p i - q i| < atol)))

/-- Sorted (x, y) pairs of get_linear_interpolated_value: Python's stable sort
by first component. -/
def interpArr (x_values y_values : List ℚ) : List (ℚ × ℚ) :=
  (x_values.zip y_values).mergeSort (fun p q => decide (p.1 ≤ q.1))

/-- Indices (ascending) of sorted pairs whose x-value strictly exceeds x;
np.where(arr[:, 0] > x)[0] in the source. -/
def interpIndices (arr : List (ℚ × ℚ)) (x : ℚ) : List ℕ :=
  (List.range arr.length).filter (fun k => decide (x < (arr.getD k (0, 0)).1))

/-- Message of the range error raised by get_linear_interpolated_value. -/
def outOfRangeMsg : String := "is out of range of provided x_values"

/-- Message of the error raised by zip(..., strict=True) on unequal lengths. -/
def zipStrictMsg : String := "zip arguments have unequal lengths"

/-- First index of the sorted pairs whose x-value strictly exceeds x
(indices[0] in the source; the headD default is never consulted on the
success path). -/
def interpIdx (x_values y_values : List ℚ) (x : ℚ) : ℕ :=
  (interpIndices (interpArr x_values y_values) x).headD 0

/-- Linear interpolation between the bracketing sorted pairs idx-1 and idx:
y1 + (y2 - y1) / (x2 - x1) * (x - x1). -/
def interpValue (x_values y_values : List ℚ) (x : ℚ) : ℚ :=
  let arr := interpArr x_values y_values
  let idx := interpIdx x_values y_values x
  (arr.getD (idx - 1) (0, 0)).2 +
    ((arr.getD idx (0, 0)).2 - (arr.getD (idx - 1) (0, 0)).2) /
      ((arr.getD idx (0, 0)).1 - (arr.getD (idx - 1) (0, 0)).1) *
    (x - (arr.getD (idx - 1) (0, 0)).1)

/-- Embedding of get_linear_interpolated_value: sort the (x, y) pairs by x,
take the first index idx whose x-value strictly exceeds x, fail if there is
none or if idx = 0, else interpolate linearly between pairs idx-1 and idx.
An empty x_values list also fails (in Python the min() call inside the error
message itself raises); both failures are range errors here. -/
def get_linear_interpolated_value (x_values y_values : List ℚ) (x : ℚ) :
    Except String ℚ :=
  if x_values.length ≠ y_values.length then Except.error zipStrictMsg
  else if (interpIndices (interpArr x_values y_values) x).isEmpty = true ∨
      interpIdx x_values y_values x = 0 then
    Except.error outOfRangeMsg
  else
    Except.ok (interpValue x_values y_values x)

/-- Row-major list of match indices of one subset point against the superset
(componentwise np.isclose with the given atol and the NumPy default rtol).
Concatenated over the subset points in order this reproduces
np.where(row-major truth table)[1] from the source. -/
def matchIdxs {d : ℕ} (superset : List (Fin d → ℚ)) (p : Fin d → ℚ) (atol : ℚ) :
    List ℕ :=
  (List.range superset.length).filter
    (fun j => decide (∀ i, npIsclose (p i) (superset.getD j (zeroVec d) i) atol = true))

/-- Broadcast of the leading axis of two 2-D arrays: equal lengths pass, a
length of 1 stretches, anything else is a NumPy broadcast error (none). -/
def bcastLen (n m : ℕ) : Option ℕ :=
  if n = m then some n else if n = 1 then some m else if m = 1 then some n else none

/-- Row k of a list of rows under leading-axis broadcasting. -/
def bcastRow {d : ℕ} (A : List (Fin d → ℚ)) (k : ℕ) : Fin d → ℚ :=
  if A.length = 1 then A.getD 0 (zeroVec d) else A.getD k (zeroVec d)

/-- np.allclose over two lists of d-dimensional rows, broadcasting the leading
axis; none models the ValueError raised on incompatible shapes. -/
def npAllcloseRows {d : ℕ} (A B : List (Fin d → ℚ)) (atol : ℚ) : Option Bool :=
  match bcastLen A.length B.length with
  | none => none
  | some n =>
    some (decide (∀ k, k < n → ∀ i, npIsclose (bcastRow A k i) (bcastRow B k i) atol = true))

def notSubsetMsg : String := "not a subset of superset"

def duplicatesMsg : String := "Something wrong with the inputs, likely duplicates in superset"

def broadcastMsg : String := "operands could not be broadcast together"

/-- Match indices of coord_list_mapping: np.where(np.all(np.isclose(...)))[1]
in row-major order. -/
def cmInds {d : ℕ} (subset superset : List (Fin d → ℚ)) (atol : ℚ) : List ℕ :=
  subset.flatMap (fun p => matchIdxs superset p atol)

/-- Reconstructed matched superset rows (superset[inds] in the source). -/
def cmResult {d : ℕ} (subset superset : List (Fin d → ℚ)) (atol : ℚ) :
    List (Fin d → ℚ) :=
  (cmInds subset superset atol).map (fun j => superset.getD j (zeroVec d))

/-- Embedding of coord_list_mapping: collect the row-major isclose matches,
reconstruct the matched superset rows, raise if the reconstruction is not
allclose to the subset (at the caller atol) while the subset is also not a
strict coordinate subset at the DEFAULT tolerance 1e-8 — the source calls
is_coord_subset(subset, superset) without forwarding atol — raise if the
number of matches differs from the subset length, else return the match
indices. -/
def coord_list_mapping {d : ℕ} (subset superset : List (Fin d → ℚ)) (atol : ℚ) :
    Except String (List ℕ) :=
  match npAllcloseRows subset (cmResult subset superset atol) atol with
  | none => Except.error broadcastMsg
  | some ac =>
    if ac = false ∧ is_coord_subset subset superset npAtol = false then
      Except.error notSubsetMsg
    else if (cmResult subset superset atol).length ≠ subset.length then
      Except.error duplicatesMsg
    else Except.ok (cmInds subset superset atol)

/-! Supercell lattice-point enumeration (lattice_points_in_supercell). -/

/-- Tolerance 1e-10 of the supercell fractional-coordinate filter. -/
def eps10 : ℚ := 1/10000000000

/-- Integer range [lo, hi) as a list (np.arange with integral bounds). -/
def intRange (lo hi : ℤ) : List ℤ :=
  (List.range (hi - lo).toNat).map (fun k : ℕ => lo + (k : ℤ))

/-- Corners of the unit cube: the diagonals array of the source, in source
order. -/
def diagonalsL : List (Fin 3 → ℤ) :=
  [![0, 0, 0], ![0, 0, 1], ![0, 1, 0], ![0, 1, 1],
    ![1, 0, 0], ![1, 0, 1], ![1, 1, 0], ![1, 1, 1]]

/-- Minimum of an integer list (np.min; the default is never used, the corner
list being nonempty). -/
def intMin (l : List ℤ) : ℤ :=
  match l with
  | [] => 0
  | a :: t => t.foldl min a

/-- Maximum of an integer list (np.max). -/
def intMax (l : List ℤ) : ℤ :=
  match l with
  | [] => 0
  | a :: t => t.foldl max a

/-- Coordinates i of the 8 transformed cube corners, np.dot(diagonals, M). -/
def cornerCoords (M : Matrix (Fin 3) (Fin 3) ℤ) (i : Fin 3) : List ℤ :=
  diagonalsL.map (fun dg => Matrix.vecMul dg M i)

/-- mins of the source: componentwise minimum over the transformed corners. -/
def scMins (M : Matrix (Fin 3) (Fin 3) ℤ) (i : Fin 3) : ℤ := intMin (cornerCoords M i)

/-- maxes of the source: componentwise maximum over the transformed corners
plus one (the exclusive arange bound). -/
def scMaxes (M : Matrix (Fin 3) (Fin 3) ℤ) (i : Fin 3) : ℤ := intMax (cornerCoords M i) + 1

/-- all_points of the source: every integer point of the bounding box, first
axis outermost (row-major reshape order). -/
def allPoints (M : Matrix (Fin 3) (Fin 3) ℤ) : List (Fin 3 → ℤ) :=
  (intRange (scMins M 0) (scMaxes M 0)).flatMap (fun a =>
    (intRange (scMins M 1) (scMaxes M 1)).flatMap (fun b =>
      (intRange (scMins M 2) (scMaxes M 2)).map (fun c => ![a, b, c])))

/-- Rational cast of an integer matrix. -/
def qMat (M : Matrix (Fin 3) (Fin 3) ℤ) : Matrix (Fin 3) (Fin 3) ℚ :=
  M.map (fun z => (z : ℚ))

/-- Computable matrix inverse over ℚ (np.linalg.inv): det⁻¹ • adjugate. -/
def qInv (A : Matrix (Fin 3) (Fin 3) ℚ) : Matrix (Fin 3) (Fin 3) ℚ :=
  A.det⁻¹ • A.adjugate

/-- Fractional coordinates of an integer point in the supercell basis:
np.dot(point, np.linalg.inv(supercell_matrix)) as a row vector. -/
def fracPoint (M : Matrix (Fin 3) (Fin 3) ℤ) (x : Fin 3 → ℤ) : Fin 3 → ℚ :=
  Matrix.vecMul (fun i => (x i : ℚ)) (qInv (qMat M))

/-- Retention filter of the source:
np.all(frac < 1 - 1e-10) & np.all(frac >= -1e-10). -/
def inCell (f : Fin 3 → ℚ) : Bool :=
  decide ((∀ i, f i < 1 - eps10) ∧ (∀ i, -eps10 ≤ f i))

def mismatchMsg : String := "The number of transformed vectors mismatch."

/-- Embedding of lattice_points_in_supercell: enumerate the bounding-box
integer points, convert to supercell-fractional coordinates, retain those in
the tolerance-padded half-open unit cube, and fail loudly unless exactly
round(|det M|) points remain. -/
def lattice_points_in_supercell (supercell_matrix : Matrix (Fin 3) (Fin 3) ℤ) :
    Except String (List (Fin 3 → ℚ)) :=
  if (((allPoints supercell_matrix).map (fracPoint supercell_matrix)).filter inCell).length =
      supercell_matrix.det.natAbs then
    Except.ok (((allPoints supercell_matrix).map (fracPoint supercell_matrix)).filter inCell)
  else Except.error mismatchMsg

/-- Diagonal supercell matrix diag(10^10, 1, 1), whose determinant sits
exactly at the reciprocal of the 1e-10 filter tolerance. -/
def bigDiag : Matrix (Fin 3) (Fin 3) ℤ := !![10000000000, 0, 0; 0, 1, 0; 0, 0, 1]

/-! Simplex.  Two views of the vertex array self._coords are embedded.

For __eq__ and __hash__ the vertex array is a plain list of rows
(List (List ℚ)), because NumPy broadcasting of differently-shaped vertex
arrays is exactly what is at stake there.  For the barycentric/volume algebra
the full-dimensional vertex array is a (d+1) x d matrix, matching the
space_dim = simplex_dim + 1 precondition under which the class precomputes
the augmented matrix and its inverse. -/

/-- Element k of a 1-D array under broadcasting (a length-1 axis stretches). -/
def bcastGet (u : List ℚ) (k : ℕ) : ℚ :=
  if u.length = 1 then u.getD 0 0 else u.getD k 0

/-- np.allclose on two 1-D arrays with broadcasting; none is a shape error. -/
def npAllcloseVec (u v : List ℚ) (atol : ℚ) : Option Bool :=
  match bcastLen u.length v.length with
  | none => none
  | some n => some (decide (∀ k, k < n → npIsclose (bcastGet u k) (bcastGet v k) atol = true))

/-- Row k of a 2-D array (list of rows) under leading-axis broadcasting. -/
def bcastRowL (A : List (List ℚ)) (k : ℕ) : List ℚ :=
  if A.length = 1 then A.getD 0 [] else A.getD k []

/-- np.allclose on two 2-D arrays, broadcasting both axes; none models the
ValueError raised on incompatible shapes. -/
def npAllclose2 (A B : List (List ℚ)) (atol : ℚ) : Option Bool :=
  match bcastLen A.length B.length with
  | none => none
  | some n =>
    if (List.range n).all (fun k => (npAllcloseVec (bcastRowL A k) (bcastRowL B k) atol).isSome)
    then some ((List.range n).all
      (fun k => (npAllcloseVec (bcastRowL A k) (bcastRowL B k) atol).getD false))
    else none

/-- Embedding of Simplex.__eq__: any(np.allclose(p, other.coords) for p in
permutations(self.coords)), with NumPy default tolerances.  A broadcast
failure propagates out of any() as an exception (none); the shape check does
not depend on the permutation since the vertex array is rectangular, so it is
performed once against the unpermuted array. -/
def simplex_eq (c1 c2 : List (List ℚ)) : Option Bool :=
  match npAllclose2 c1 c2 npAtol with
  | none => none
  | some _ => some (c1.permutations.any (fun p => (npAllclose2 p c2 npAtol).getD false))

/-- Embedding of Simplex.__hash__: len(self._coords), the number of vertices. -/
def simplex_hash (coords : List (List ℚ)) : ℕ := coords.length

/-- Augmented matrix of a full-dimensional simplex: the (d+1) x d vertex rows
extended with a trailing column of ones. -/
def simplexAug (d : ℕ) (coords : Matrix (Fin (d+1)) (Fin d) ℚ) :
    Matrix (Fin (d+1)) (Fin (d+1)) ℚ :=
  Matrix.of (fun i => Fin.snoc (coords i) 1)

/-- Computable inverse of the augmented matrix (np.linalg.inv in the source):
det⁻¹ • adjugate, which coincides with matrix inversion over ℚ whenever the
determinant is nonzero. -/
def simplexAugInv (d : ℕ) (coords : Matrix (Fin (d+1)) (Fin d) ℚ) :
    Matrix (Fin (d+1)) (Fin (d+1)) ℚ :=
  ((simplexAug d coords).det)⁻¹ • (simplexAug d coords).adjugate

/-- Embedding of Simplex.volume: |det(augmented matrix)| / d! for a d-simplex
(simplex_dim = d). -/
def simplexVolume (d : ℕ) (coords : Matrix (Fin (d+1)) (Fin d) ℚ) : ℚ :=
  |(simplexAug d coords).det| / (Nat.factorial d : ℚ)

/-- Embedding of Simplex.bary_coords:
np.dot(np.concatenate([point, [1]]), self._aug_inv). -/
def bary_coords (d : ℕ) (coords : Matrix (Fin (d+1)) (Fin d) ℚ)
    (point : Fin d → ℚ) : Fin (d+1) → ℚ :=
  Matrix.vecMul (Fin.snoc point 1) (simplexAugInv d coords)

/-- Embedding of Simplex.point_from_bary_coords:
np.dot(bary_coords, self._aug[:, :-1]). -/
def point_from_bary_coords (d : ℕ) (coords : Matrix (Fin (d+1)) (Fin d) ℚ)
    (b : Fin (d+1) → ℚ) : Fin d → ℚ :=
  Matrix.vecMul b ((simplexAug d coords).submatrix id Fin.castSucc)

/-- Vertices of the unit right tetrahedron: the three unit axis vectors
followed by the origin. -/
def unitTetra : Matrix (Fin 4) (Fin 3) ℚ :=
  !![1, 0, 0; 0, 1, 0; 0, 0, 1; 0, 0, 0]

/-! Proof layer.  The Rat arithmetic operations are irreducible by default;
making them semireducible lets concrete rational computations be settled by
kernel reduction (decide / rfl). -/

attribute [local semireducible] Rat.mul Rat.inv Rat.add Rat.sub

/-! Helper lemmas about the sorted interpolation array. -/

theorem interpArr_pairwise (xs ys : List ℚ) :
    (interpArr xs ys).Pairwise (fun p q => p.1 ≤ q.1) := by
  have h := @List.sorted_mergeSort (ℚ × ℚ) (fun p q => decide (p.1 ≤ q.1))
    (fun a b c hab hbc => by
      simp only [decide_eq_true_eq] at hab hbc ⊢
      exact le_trans hab hbc)
    (fun a b => by
      rcases le_total a.1 b.1 with h | h <;> simp [h])
    (xs.zip ys)
  exact h.imp (fun hab => by simpa using hab)

theorem interpArr_perm (xs ys : List ℚ) : (interpArr xs ys).Perm (xs.zip ys) :=
  List.mergeSort_perm (xs.zip ys) _

theorem interpArr_fst_perm (xs ys : List ℚ) (h : xs.length = ys.length) :
    ((interpArr xs ys).map Prod.fst).Perm xs := by
  have hp := (interpArr_perm xs ys).map Prod.fst
  rwa [List.map_fst_zip xs ys (le_of_eq h)] at hp

theorem interpArr_fst_mem {xs ys : List ℚ} (h : xs.length = ys.length)
    {p : ℚ × ℚ} (hp : p ∈ interpArr xs ys) : p.1 ∈ xs :=
  (interpArr_fst_perm xs ys h).mem_iff.mp (List.mem_map_of_mem Prod.fst hp)

theorem interpArr_exists_getElem {xs ys : List ℚ} (h : xs.length = ys.length)
    {v : ℚ} (hv : v ∈ xs) :
    ∃ k, ∃ hk : k < (interpArr xs ys).length, ((interpArr xs ys)[k]).1 = v := by
  have hm : v ∈ (interpArr xs ys).map Prod.fst :=
    (interpArr_fst_perm xs ys h).mem_iff.mpr hv
  obtain ⟨p, hp, hpv⟩ := List.mem_map.mp hm
  obtain ⟨k, hk, hkp⟩ := List.mem_iff_getElem.mp hp
  exact ⟨k, hk, by rw [hkp, hpv]⟩

theorem interpArr_le_of_le (xs ys : List ℚ) {k l : ℕ}
    (hk : k < (interpArr xs ys).length) (hl : l < (interpArr xs ys).length)
    (hkl : k ≤ l) : ((interpArr xs ys)[k]).1 ≤ ((interpArr xs ys)[l]).1 := by
  rcases lt_or_eq_of_le hkl with hlt | heq
  · exact List.pairwise_iff_getElem.mp (interpArr_pairwise xs ys) k l hk hl hlt
  · subst heq
    exact le_refl _

theorem interpIndices_eq_nil_iff (arr : List (ℚ × ℚ)) (x : ℚ) :
    interpIndices arr x = [] ↔ ∀ k, k < arr.length → (arr.getD k (0, 0)).1 ≤ x := by
  simp only [interpIndices, List.filter_eq_nil_iff, List.mem_range, decide_eq_true_eq, not_lt]

theorem interpIndices_mem_iff (arr : List (ℚ × ℚ)) (x : ℚ) (k : ℕ) :
    k ∈ interpIndices arr x ↔ k < arr.length ∧ x < (arr.getD k (0, 0)).1 := by
  simp [interpIndices, List.mem_filter, List.mem_range]

theorem interpIndices_pairwise (arr : List (ℚ × ℚ)) (x : ℚ) :
    (interpIndices arr x).Pairwise (· < ·) :=
  List.Pairwise.filter _ (List.pairwise_lt_range _)

theorem headD_mem_of_ne_nil {l : List ℕ} (h : l ≠ []) : l.headD 0 ∈ l := by
  cases l with
  | nil => exact absurd rfl h
  | cons a t => simp

theorem headD_eq_zero_of_mem {l : List ℕ} (hp : l.Pairwise (· < ·)) (h0 : 0 ∈ l) :
    l.headD 0 = 0 := by
  cases l with
  | nil => simp at h0
  | cons a t =>
    rcases List.mem_cons.mp h0 with h | h
    · simpa using h.symm
    · have := (List.pairwise_cons.mp hp).1 0 h
      omega

/-- Evaluation of the sorted pair array on the concrete dataset {(0,0),(2,4)}
(the zipped list is already sorted, so mergeSort leaves it unchanged). -/
theorem interpArr_concrete : interpArr [0, 2] [0, 4] = [(0, 0), (2, 4)] := by
  have hz : ([(0 : ℚ), 2].zip [(0 : ℚ), 4]) = [((0 : ℚ), (0 : ℚ)), (2, 4)] := rfl
  unfold interpArr
  rw [hz]
  exact List.mergeSort_of_sorted (by decide)

/-- C4 (amended): get_linear_interpolated_value raises its range error exactly
when x < min(x_values) or max(x_values) ≤ x: the right endpoint max(x_values)
itself raises (the code looks for a sorted x-value strictly greater than x),
so the error region is the complement of the half-open interval [min, max),
not of the closed interval.  On the dataset {(0,0),(2,4)} the value at x = 1
is 2. -/
theorem get_linear_interpolated_value_error_iff (xs ys : List ℚ) (x m M : ℚ)
    (hlen : xs.length = ys.length)
    (hm_mem : m ∈ xs) (hm_le : ∀ y ∈ xs, m ≤ y)
    (hM_mem : M ∈ xs) (hM_ge : ∀ y ∈ xs, y ≤ M) :
    ((∃ e, get_linear_interpolated_value xs ys x = Except.error e) ↔ (x < m ∨ M ≤ x)) ∧
      get_linear_interpolated_value [0, 2] [0, 4] 1 = Except.ok 2 := by
  constructor
  · unfold get_linear_interpolated_value
    rw [if_neg (by omega)]
    by_cases hE : (interpIndices (interpArr xs ys) x).isEmpty = true ∨ interpIdx xs ys x = 0
    · rw [if_pos hE]
      refine iff_of_true ⟨outOfRangeMsg, rfl⟩ ?_
      by_cases hnil : interpIndices (interpArr xs ys) x = []
      · right
        obtain ⟨k, hk, hkM⟩ := interpArr_exists_getElem hlen hM_mem
        have hall := (interpIndices_eq_nil_iff (interpArr xs ys) x).mp hnil k hk
        rw [List.getD_eq_getElem _ _ hk, hkM] at hall
        exact hall
      · left
        have h0 : interpIdx xs ys x = 0 := by
          rcases hE with hE | hE
          · exact absurd (List.isEmpty_iff.mp hE) hnil
          · exact hE
        have h0m : 0 ∈ interpIndices (interpArr xs ys) x := by
          have := headD_mem_of_ne_nil hnil
          rwa [show (interpIndices (interpArr xs ys) x).headD 0 = 0 from h0] at this
        obtain ⟨h0len, h0x⟩ := (interpIndices_mem_iff _ _ 0).mp h0m
        obtain ⟨k, hk, hkm⟩ := interpArr_exists_getElem hlen hm_mem
        have hle : ((interpArr xs ys)[0]).1 ≤ m := by
          rw [← hkm]
          exact interpArr_le_of_le xs ys h0len hk (Nat.zero_le k)
        rw [List.getD_eq_getElem _ _ h0len] at h0x
        exact lt_of_lt_of_le h0x hle
    · rw [if_neg hE]
      push_neg at hE
      obtain ⟨hne, hh0⟩ := hE
      have hnil : interpIndices (interpArr xs ys) x ≠ [] := by
        intro h
        exact hne (List.isEmpty_iff.mpr h)
      have hj : interpIdx xs ys x ∈ interpIndices (interpArr xs ys) x :=
        headD_mem_of_ne_nil hnil
      obtain ⟨hjlen, hjx⟩ := (interpIndices_mem_iff _ _ _).mp hj
      refine iff_of_false (by simp) ?_
      rintro (hxm | hxM)
      · have h0len : 0 < (interpArr xs ys).length := lt_of_le_of_lt (Nat.zero_le _) hjlen
        have hmem0 : ((interpArr xs ys)[0]).1 ∈ xs :=
          interpArr_fst_mem hlen (List.getElem_mem h0len)
        have h0x : x < ((interpArr xs ys).getD 0 (0, 0)).1 := by
          rw [List.getD_eq_getElem _ _ h0len]
          exact lt_of_lt_of_le hxm (hm_le _ hmem0)
        have h0m : 0 ∈ interpIndices (interpArr xs ys) x :=
          (interpIndices_mem_iff _ _ 0).mpr ⟨h0len, h0x⟩
        exact hh0 (headD_eq_zero_of_mem (interpIndices_pairwise _ _) h0m)
      · have hmemj : ((interpArr xs ys).getD (interpIdx xs ys x) (0, 0)).1 ∈ xs := by
          rw [List.getD_eq_getElem _ _ hjlen]
          exact interpArr_fst_mem hlen (List.getElem_mem hjlen)
        exact absurd hxM (not_le.mpr (lt_of_lt_of_le hjx (hM_ge _ hmemj)))
  · simp only [get_linear_interpolated_value, interpValue, interpIdx, interpIndices,
      interpArr_concrete]
    rfl

theorem npRound_sub_le (q : ℚ) :
    -(1/2) ≤ q - (npRound q : ℚ) ∧ q - (npRound q : ℚ) ≤ 1/2 := by
  have h0 : (0 : ℚ) ≤ q - (⌊q⌋ : ℚ) := by
    have := Int.floor_le q; linarith
  have h1 : q - (⌊q⌋ : ℚ) < 1 := by
    have := Int.lt_floor_add_one q; linarith
  unfold npRound
  by_cases hlt : q - (⌊q⌋ : ℚ) < 1/2
  · rw [if_pos hlt]
    constructor <;> linarith
  · rw [if_neg hlt]
    by_cases hgt : 1/2 < q - (⌊q⌋ : ℚ)
    · rw [if_pos hgt]
      push_cast
      constructor <;> linarith
    · rw [if_neg hgt]
      by_cases hev : ⌊q⌋ % 2 = 0
      · rw [if_pos hev]
        constructor <;> linarith
      · rw [if_neg hev]
        push_cast
        constructor <;> linarith

/-- C1 (amended): for every pair of fractional coordinates and every axis whose
periodic-boundary flag is true, the corresponding component of
pbc_diff(frac_coords1, frac_coords2, pbc) lies in the CLOSED interval
[-1/2, 1/2].  (Both endpoints are attained: np.round rounds ties to even, so a
raw difference of 1/2 maps to 1/2 and one of 3/2 maps to -1/2.) -/
theorem pbc_diff_bounds (frac_coords1 frac_coords2 : Fin 3 → ℚ) (pbc : Fin 3 → Bool)
    (i : Fin 3) (h : pbc i = true) :
    -(1/2) ≤ pbc_diff frac_coords1 frac_coords2 pbc i ∧
      pbc_diff frac_coords1 frac_coords2 pbc i ≤ 1/2 := by
  unfold pbc_diff
  rw [h]
  simpa using npRound_sub_le (frac_coords1 i - frac_coords2 i)

/-- C3 (amended): for any strictly positive tolerance, a coordinate list that
contains the query point exactly yields the point's position among the indices
returned by find_in_coord_list. -/
theorem find_in_coord_list_exact_mem {d : ℕ} (cl : List (Fin d → ℚ)) (c : Fin d → ℚ)
    (atol : ℚ) (n : ℕ) (hn : n < cl.length) (hc : cl.getD n (zeroVec d) = c)
    (ha : 0 < atol) : n ∈ find_in_coord_list cl c atol := by
  unfold find_in_coord_list
  rw [if_neg (by omega)]
  refine List.mem_filter.mpr ⟨List.mem_range.mpr hn, ?_⟩
  rw [decide_eq_true_iff]
  intro i
  rw [hc]
  simpa using ha

/-- C9: on an empty coordinate list, find_in_coord_list and
find_in_coord_list_pbc return the empty index list (no error), hence
in_coord_list and in_coord_list_pbc return false. -/
theorem empty_list_no_matches {d : ℕ} (c : Fin d → ℚ) (c3 : Fin 3 → ℚ) (atol : ℚ)
    (pbc : Fin 3 → Bool) :
    find_in_coord_list ([] : List (Fin d → ℚ)) c atol = [] ∧
      find_in_coord_list_pbc [] c3 atol pbc = [] ∧
      in_coord_list ([] : List (Fin d → ℚ)) c atol = false ∧
      in_coord_list_pbc [] c3 atol pbc = false :=
  ⟨rfl, rfl, rfl, rfl⟩

/-! Helper lemmas for coord_list_mapping. -/

theorem matchIdxs_mem_iff {d : ℕ} (superset : List (Fin d → ℚ)) (p : Fin d → ℚ)
    (atol : ℚ) (j : ℕ) :
    j ∈ matchIdxs superset p atol ↔
      j < superset.length ∧
        ∀ i, npIsclose (p i) (superset.getD j (zeroVec d) i) atol = true := by
  simp [matchIdxs, List.mem_filter, List.mem_range]

theorem is_coord_subset_spec {d : ℕ} (subset superset : List (Fin d → ℚ)) (atol : ℚ) :
    is_coord_subset subset superset atol = true ↔
      ∀ p ∈ subset, ∃ q ∈ superset, ∀ i, |p i - q i| < atol := by
  simp [is_coord_subset, List.all_eq_true, List.any_eq_true]

theorem strict_match_isclose {a b atol : ℚ} (h : |a - b| < atol) :
    npIsclose a b atol = true := by
  rw [npIsclose, decide_eq_true_iff]
  have h1 : 0 ≤ npRtol * |b| := by
    have : (0:ℚ) ≤ npRtol := by norm_num [npRtol]
    exact mul_nonneg this (abs_nonneg b)
  linarith

theorem matchIdxs_ne_nil_of_strict {d : ℕ} {superset : List (Fin d → ℚ)}
    {p : Fin d → ℚ} {atol : ℚ} (h : ∃ q ∈ superset, ∀ i, |p i - q i| < atol) :
    matchIdxs superset p atol ≠ [] := by
  obtain ⟨q, hq, hqi⟩ := h
  obtain ⟨j, hj, hjq⟩ := List.mem_iff_getElem.mp hq
  have : j ∈ matchIdxs superset p atol := by
    rw [matchIdxs_mem_iff]
    refine ⟨hj, fun i => ?_⟩
    rw [List.getD_eq_getElem _ _ hj, hjq]
    exact strict_match_isclose (hqi i)
  exact List.ne_nil_of_mem this

theorem length_le_length_flatMap {α β : Type _} (l : List α) (f : α → List β)
    (hne : ∀ a ∈ l, f a ≠ []) : l.length ≤ (l.flatMap f).length := by
  induction l with
  | nil => simp
  | cons a t ih =>
    rw [List.flatMap_cons, List.length_append, List.length_cons]
    have h1 : 1 ≤ (f a).length :=
      List.length_pos.mpr (hne a (List.mem_cons_self a t))
    have h2 : t.length ≤ (t.flatMap f).length :=
      ih (fun b hb => hne b (List.mem_cons_of_mem a hb))
    omega

theorem flatMap_align {α β : Type _} (da : α) (db : β) (l : List α) (f : α → List β)
    (hlen : (l.flatMap f).length = l.length) (hne : ∀ a ∈ l, f a ≠ []) :
    ∀ k, k < l.length → (l.flatMap f).getD k db ∈ f (l.getD k da) := by
  induction l with
  | nil => intro k hk; simp at hk
  | cons a t ih =>
    intro k hk
    have hfa : f a ≠ [] := hne a (List.mem_cons_self a t)
    have hta : ∀ b ∈ t, f b ≠ [] := fun b hb => hne b (List.mem_cons_of_mem a hb)
    have hone : (f a).length = 1 := by
      have h1 : 1 ≤ (f a).length := List.length_pos.mpr hfa
      have h2 : t.length ≤ (t.flatMap f).length := length_le_length_flatMap t f hta
      rw [List.flatMap_cons, List.length_append, List.length_cons] at hlen
      omega
    obtain ⟨b, hb⟩ := List.length_eq_one.mp hone
    have hlen' : (t.flatMap f).length = t.length := by
      rw [List.flatMap_cons, List.length_append, List.length_cons, hone] at hlen
      omega
    rw [List.flatMap_cons, hb]
    cases k with
    | zero => simp [hb]
    | succ n =>
      have hn : n < t.length := by
        rw [List.length_cons] at hk
        omega
      have := ih hlen' hta n hn
      simpa using this

theorem cmInds_lt {d : ℕ} (subset superset : List (Fin d → ℚ)) (atol : ℚ) :
    ∀ j ∈ cmInds subset superset atol, j < superset.length := by
  intro j hj
  obtain ⟨p, hp, hjp⟩ := List.mem_flatMap.mp hj
  exact ((matchIdxs_mem_iff superset p atol j).mp hjp).1

/-- C5 (amended): whenever coord_list_mapping returns successfully, the
mapping has exactly one index per subset point and every returned index is a
valid superset position, and EITHER the reconstructed superset rows agree
componentwise with the subset within the np.isclose tolerance at the caller
atol, OR the subset passes the fallback is_coord_subset check at the FIXED
default tolerance 1e-8 — the source never forwards atol to that call, so for
atol below 1e-8 a misaligned mapping can be returned without raising (see the
counterexample).  A subset point absent from the superset at both tolerances
still always raises; the final conjunct shows a concrete instance. -/
theorem coord_list_mapping_ok {d : ℕ} (subset superset : List (Fin d → ℚ))
    (atol : ℚ) (inds : List ℕ)
    (h : coord_list_mapping subset superset atol = Except.ok inds) :
    inds.length = subset.length ∧
      (∀ j ∈ inds, j < superset.length) ∧
      ((∀ k, k < subset.length → ∀ i,
          npIsclose (subset.getD k (zeroVec d) i)
            (superset.getD (inds.getD k 0) (zeroVec d) i) atol = true) ∨
        is_coord_subset subset superset npAtol = true) ∧
      coord_list_mapping [(fun _ => 5 : Fin 3 → ℚ)] [zeroVec 3] (1/100000000) =
        Except.error duplicatesMsg := by
  rcases hA : npAllcloseRows subset (cmResult subset superset atol) atol with _ | ac
  · rw [coord_list_mapping, hA] at h
    exact absurd h (by simp)
  · rw [coord_list_mapping, hA] at h
    dsimp only at h
    by_cases h1 : ac = false ∧ is_coord_subset subset superset npAtol = false
    · rw [if_pos h1] at h
      exact absurd h (by simp)
    · rw [if_neg h1] at h
      by_cases h2 : (cmResult subset superset atol).length ≠ subset.length
      · rw [if_pos h2] at h
        exact absurd h (by simp)
      · rw [if_neg h2] at h
        push_neg at h2
        have hinds : inds = cmInds subset superset atol := by
          have := h
          simp only [Except.ok.injEq] at this
          exact this.symm
        subst hinds
        have hlen : (cmInds subset superset atol).length = subset.length := by
          rw [cmResult, List.length_map] at h2
          exact h2
        refine ⟨hlen, cmInds_lt subset superset atol, ?_, by rfl⟩
        have hresult : ∀ k, k < subset.length →
            (cmResult subset superset atol).getD k (zeroVec d) =
              superset.getD ((cmInds subset superset atol).getD k 0) (zeroVec d) := by
          intro k hk
          have hk' : k < (cmInds subset superset atol).length := by omega
          rw [cmResult]
          rw [List.getD_eq_getElem _ _ (by simpa using hk'), List.getElem_map,
            List.getD_eq_getElem _ _ hk']
        rcases Bool.eq_false_or_eq_true ac with hac | hac
        · -- allclose succeeded: rows line up index by index
          left
          have hAc : npAllcloseRows subset (cmResult subset superset atol) atol =
              some true := by rw [hA, hac]
          rw [npAllcloseRows] at hAc
          have hbc : bcastLen subset.length (cmResult subset superset atol).length =
              some subset.length := by
            rw [h2, bcastLen, if_pos rfl]
          rw [hbc] at hAc
          simp only [Option.some.injEq, decide_eq_true_eq] at hAc
          intro k hk i
          have hclose := hAc k hk i
          have hbr1 : bcastRow subset k = subset.getD k (zeroVec d) := by
            rw [bcastRow]
            split
            · next hone =>
              have : k = 0 := by omega
              rw [this]
            · rfl
          have hbr2 : bcastRow (cmResult subset superset atol) k =
              (cmResult subset superset atol).getD k (zeroVec d) := by
            rw [bcastRow]
            split
            · next hone =>
              have : k = 0 := by
                rw [h2] at hone
                omega
              rw [this]
            · rfl
          rw [hbr1, hbr2, hresult k hk] at hclose
          exact hclose
        · -- allclose failed: the fixed-default subset fallback must have passed
          right
          rcases Bool.eq_false_or_eq_true (is_coord_subset subset superset npAtol) with
            hs | hs
          · exact hs
          · exact absurd ⟨hac, hs⟩ h1

/-! Helper lemmas and claim theorems for Simplex. -/

theorem option_getD_false_iff (o : Option Bool) : o.getD false = true ↔ o = some true := by
  cases o <;> simp

/-- C6 (amended): Simplex.__eq__ is tolerance-based, not exact: it returns
True exactly when the (broadcast-compatible) vertex arrays admit a permutation
of the first that is componentwise np.isclose to the second with NumPy default
tolerances (atol 1e-8, rtol 1e-5). -/
theorem simplex_eq_iff (c1 c2 : List (List ℚ)) :
    simplex_eq c1 c2 = some true ↔
      ((npAllclose2 c1 c2 npAtol).isSome ∧
        ∃ p ∈ c1.permutations, npAllclose2 p c2 npAtol = some true) := by
  rcases hA : npAllclose2 c1 c2 npAtol with _ | b
  · rw [simplex_eq, hA]
    simp
  · rw [simplex_eq, hA]
    simp [List.any_eq_true, option_getD_false_iff]

/-- C7: for a full-dimensional simplex whose augmented matrix is invertible,
point_from_bary_coords inverts bary_coords exactly (the float implementation
recovers the point within floating tolerance; over ℚ the recovery is exact). -/
theorem bary_coords_round_trip (d : ℕ) (coords : Matrix (Fin (d+1)) (Fin d) ℚ)
    (point : Fin d → ℚ) (h : (simplexAug d coords).det ≠ 0) :
    point_from_bary_coords d coords (bary_coords d coords point) = point := by
  have h1 : simplexAugInv d coords * simplexAug d coords = 1 := by
    rw [simplexAugInv, Matrix.smul_mul, Matrix.adjugate_mul, smul_smul,
      inv_mul_cancel₀ h, one_smul]
  funext j
  have h2 : point_from_bary_coords d coords (bary_coords d coords point) j =
      Matrix.vecMul (Fin.snoc point 1)
        (simplexAugInv d coords * simplexAug d coords) (Fin.castSucc j) := by
    rw [point_from_bary_coords, bary_coords, ← Matrix.vecMul_vecMul]
    rfl
  rw [h2, h1, Matrix.vecMul_one, Fin.snoc_castSucc]

/-- C10 (amended): Simplex.__hash__ returns the number of vertices, so two
equal simplices WITH THE SAME NUMBER OF VERTICES have equal hashes.  Equality
alone does not suffice: np.allclose broadcasts a single vertex row against
many, so simplices with different vertex counts can compare equal while
hashing differently. -/
theorem simplex_hash_spec :
    (∀ coords : List (List ℚ), simplex_hash coords = coords.length) ∧
      ∀ c1 c2 : List (List ℚ), simplex_eq c1 c2 = some true →
        c1.length = c2.length → simplex_hash c1 = simplex_hash c2 :=
  ⟨fun _ => rfl, fun _ _ _ h => h⟩

/-! Helper lemmas for lattice_points_in_supercell: bounding box membership. -/

theorem mem_intRange {lo hi z : ℤ} : z ∈ intRange lo hi ↔ lo ≤ z ∧ z < hi := by
  unfold intRange
  simp only [List.mem_map, List.mem_range]
  constructor
  · rintro ⟨k, hk, rfl⟩
    omega
  · intro h
    exact ⟨(z - lo).toNat, by omega, by omega⟩

theorem nodup_intRange (lo hi : ℤ) : (intRange lo hi).Nodup := by
  unfold intRange
  exact (List.nodup_range _).map (fun a b h => by omega)

theorem vec3_eta (x : Fin 3 → ℤ) : ![x 0, x 1, x 2] = x := by
  funext i
  fin_cases i <;> simp

theorem vec3_comps (a b c : ℤ) :
    (![a, b, c] : Fin 3 → ℤ) 0 = a ∧ (![a, b, c] : Fin 3 → ℤ) 1 = b ∧
      (![a, b, c] : Fin 3 → ℤ) 2 = c := by
  refine ⟨rfl, rfl, rfl⟩

theorem mem_allPoints {M : Matrix (Fin 3) (Fin 3) ℤ} {x : Fin 3 → ℤ} :
    x ∈ allPoints M ↔
      ∀ i, scMins M i ≤ x i ∧ x i < scMaxes M i := by
  unfold allPoints
  simp only [List.mem_flatMap, List.mem_map]
  constructor
  · rintro ⟨a, ha, b, hb, c, hc, rfl⟩
    rw [mem_intRange] at ha hb hc
    intro i
    fin_cases i <;> simpa
  · intro h
    refine ⟨x 0, mem_intRange.mpr (h 0), x 1, mem_intRange.mpr (h 1),
      x 2, mem_intRange.mpr (h 2), vec3_eta x⟩

theorem nodup_allPoints (M : Matrix (Fin 3) (Fin 3) ℤ) : (allPoints M).Nodup := by
  unfold allPoints
  rw [List.nodup_flatMap]
  constructor
  · intro a ha
    rw [List.nodup_flatMap]
    constructor
    · intro b hb
      refine (nodup_intRange _ _).map (fun c c' h => ?_)
      have : (![a, b, c] : Fin 3 → ℤ) 2 = (![a, b, c'] : Fin 3 → ℤ) 2 := by rw [h]
      simpa using this
    · refine (List.Pairwise.imp ?_ (nodup_intRange _ _))
      intro b b' hbb v hv hv'
      obtain ⟨c, hc, hcv⟩ := List.mem_map.mp hv
      obtain ⟨c', hc', hcv'⟩ := List.mem_map.mp hv'
      have : (![a, b, c] : Fin 3 → ℤ) 1 = (![a, b', c'] : Fin 3 → ℤ) 1 := by
        rw [hcv, hcv']
      simp at this
      exact hbb this
  · refine (List.Pairwise.imp ?_ (nodup_intRange _ _))
    intro a a' haa v hv hv'
    simp only [List.mem_flatMap, List.mem_map] at hv hv'
    obtain ⟨b, hb, c, hc, hcv⟩ := hv
    obtain ⟨b', hb', c', hc', hcv'⟩ := hv'
    have : (![a, b, c] : Fin 3 → ℤ) 0 = (![a', b', c'] : Fin 3 → ℤ) 0 := by
      rw [hcv, hcv']
    simp at this
    exact haa this

/-! Rational inverse identities and cast lemmas. -/

theorem det_qMat (M : Matrix (Fin 3) (Fin 3) ℤ) : (qMat M).det = (M.det : ℚ) := by
  have h := RingHom.map_det (Int.castRingHom ℚ) M
  rw [RingHom.mapMatrix_apply] at h
  exact h.symm

theorem det_qMat_ne_zero {M : Matrix (Fin 3) (Fin 3) ℤ} (h : M.det ≠ 0) :
    (qMat M).det ≠ 0 := by
  rw [det_qMat]
  exact_mod_cast h

theorem qInv_mul {M : Matrix (Fin 3) (Fin 3) ℤ} (h : M.det ≠ 0) :
    qInv (qMat M) * qMat M = 1 := by
  rw [qInv, Matrix.smul_mul, Matrix.adjugate_mul, smul_smul,
    inv_mul_cancel₀ (det_qMat_ne_zero h), one_smul]

theorem mul_qInv {M : Matrix (Fin 3) (Fin 3) ℤ} (h : M.det ≠ 0) :
    qMat M * qInv (qMat M) = 1 := by
  rw [qInv, Matrix.mul_smul, Matrix.mul_adjugate, smul_smul,
    inv_mul_cancel₀ (det_qMat_ne_zero h), one_smul]

theorem castVec_vecMul (z : Fin 3 → ℤ) (M : Matrix (Fin 3) (Fin 3) ℤ) :
    (fun i => ((Matrix.vecMul z M) i : ℚ)) =
      Matrix.vecMul (fun i => (z i : ℚ)) (qMat M) := by
  funext j
  simp only [Matrix.vecMul, Matrix.dotProduct, qMat, Matrix.map_apply]
  push_cast
  rfl

theorem fracPoint_vecMul {M : Matrix (Fin 3) (Fin 3) ℤ} (h : M.det ≠ 0)
    (z : Fin 3 → ℤ) :
    fracPoint M (Matrix.vecMul z M) = fun i => (z i : ℚ) := by
  rw [fracPoint, castVec_vecMul, Matrix.vecMul_vecMul, mul_qInv h, Matrix.vecMul_one]

theorem vecMul_fracPoint {M : Matrix (Fin 3) (Fin 3) ℤ} (h : M.det ≠ 0)
    (x : Fin 3 → ℤ) :
    Matrix.vecMul (fracPoint M x) (qMat M) = fun i => (x i : ℚ) := by
  rw [fracPoint, Matrix.vecMul_vecMul, qInv_mul h, Matrix.vecMul_one]

theorem fracPoint_sub (M : Matrix (Fin 3) (Fin 3) ℤ) (x y : Fin 3 → ℤ) :
    fracPoint M (x - y) = fracPoint M x - fracPoint M y := by
  unfold fracPoint
  rw [show (fun i => ((x - y) i : ℚ)) =
      (fun i => (x i : ℚ)) - (fun i => (y i : ℚ)) by
    funext i
    simp only [Pi.sub_apply]
    push_cast
    rfl]
  exact Matrix.sub_vecMul _ _ _

/-- Numerator form of the fractional coordinates: every component is an
integer divided by the determinant. -/
theorem fracPoint_eq_div {M : Matrix (Fin 3) (Fin 3) ℤ} (x : Fin 3 → ℤ) (i : Fin 3) :
    fracPoint M x i = ((Matrix.vecMul x M.adjugate) i : ℚ) / (M.det : ℚ) := by
  have hadj : (qMat M).adjugate = qMat M.adjugate := by
    have h := RingHom.map_adjugate (Int.castRingHom ℚ) M
    rw [RingHom.mapMatrix_apply, RingHom.mapMatrix_apply] at h
    exact h.symm
  rw [fracPoint, qInv, hadj]
  have hs : Matrix.vecMul (fun i => (x i : ℚ)) ((qMat M).det⁻¹ • qMat M.adjugate) =
      (qMat M).det⁻¹ • Matrix.vecMul (fun i => (x i : ℚ)) (qMat M.adjugate) := by
    funext j
    simp only [Matrix.vecMul, Matrix.dotProduct, Matrix.smul_apply, Pi.smul_apply,
      smul_eq_mul, Finset.mul_sum]
    exact Finset.sum_congr rfl (fun k _ => by ring)
  rw [hs, ← castVec_vecMul, det_qMat]
  simp only [Pi.smul_apply, smul_eq_mul]
  rw [div_eq_inv_mul]

/-! Tolerance analysis: with |det| < 10^10 the 1e-10-padded filter coincides
with exact membership in the half-open unit cube. -/

theorem frac_filter_iff_pos {k n : ℤ} (hn : 0 < n) (hlt : n < 10 ^ 10) :
    (-eps10 ≤ (k : ℚ) / (n : ℚ) ∧ (k : ℚ) / (n : ℚ) < 1 - eps10) ↔
      (0 ≤ (k : ℚ) / (n : ℚ) ∧ (k : ℚ) / (n : ℚ) < 1) := by
  have hn0 : (0 : ℚ) < (n : ℚ) := by exact_mod_cast hn
  have hnle : (n : ℚ) ≤ 10 ^ 10 - 1 := by
    have h : n ≤ 10 ^ 10 - 1 := by omega
    have h2 : ((n : ℤ) : ℚ) ≤ (((10 ^ 10 - 1 : ℤ)) : ℚ) := by exact_mod_cast h
    push_cast at h2
    linarith
  have heps0 : (0 : ℚ) < eps10 := by norm_num [eps10]
  have heps : eps10 * (n : ℚ) < 1 := by
    have h1 : eps10 * (n : ℚ) ≤ eps10 * ((10 : ℚ) ^ 10 - 1) :=
      mul_le_mul_of_nonneg_left hnle (le_of_lt heps0)
    have h2 : eps10 * ((10 : ℚ) ^ 10 - 1) < 1 := by norm_num [eps10]
    linarith
  constructor
  · rintro ⟨h1, h2⟩
    refine ⟨?_, lt_trans h2 (by linarith)⟩
    rw [le_div_iff₀ hn0] at h1
    have hk : (-1 : ℚ) < (k : ℚ) := by nlinarith
    have hk' : (0 : ℤ) ≤ k := by
      have : (-1 : ℤ) < k := by exact_mod_cast hk
      omega
    exact div_nonneg (by exact_mod_cast hk') (le_of_lt hn0)
  · rintro ⟨h1, h2⟩
    refine ⟨le_trans (by linarith) h1, ?_⟩
    rw [div_lt_one hn0] at h2
    have hk : k ≤ n - 1 := by
      have : k < n := by exact_mod_cast h2
      omega
    have hkq : (k : ℚ) ≤ (n : ℚ) - 1 := by
      have h2 : ((k : ℤ) : ℚ) ≤ (((n - 1 : ℤ)) : ℚ) := by exact_mod_cast hk
      push_cast at h2
      linarith
    rw [div_lt_iff₀ hn0]
    nlinarith

theorem frac_filter_iff {k D : ℤ} (hD : D ≠ 0) (hlt : D.natAbs < 10 ^ 10) :
    (-eps10 ≤ (k : ℚ) / (D : ℚ) ∧ (k : ℚ) / (D : ℚ) < 1 - eps10) ↔
      (0 ≤ (k : ℚ) / (D : ℚ) ∧ (k : ℚ) / (D : ℚ) < 1) := by
  rcases lt_or_gt_of_ne hD with hneg | hpos
  · have hq : (k : ℚ) / (D : ℚ) = ((-k : ℤ) : ℚ) / ((-D : ℤ) : ℚ) := by
      push_cast
      rw [neg_div_neg_eq]
    rw [hq]
    exact frac_filter_iff_pos (by omega) (by omega)
  · exact frac_filter_iff_pos hpos (by omega)

theorem inCell_fracPoint_iff {M : Matrix (Fin 3) (Fin 3) ℤ} (h0 : M.det ≠ 0)
    (hlt : M.det.natAbs < 10 ^ 10) (x : Fin 3 → ℤ) :
    inCell (fracPoint M x) = true ↔
      ∀ i, 0 ≤ fracPoint M x i ∧ fracPoint M x i < 1 := by
  rw [inCell, decide_eq_true_iff]
  have key : ∀ i, (-eps10 ≤ fracPoint M x i ∧ fracPoint M x i < 1 - eps10) ↔
      (0 ≤ fracPoint M x i ∧ fracPoint M x i < 1) := by
    intro i
    rw [fracPoint_eq_div x i]
    exact frac_filter_iff h0 hlt
  constructor
  · rintro ⟨hup, hlow⟩ i
    exact (key i).mp ⟨hlow i, hup i⟩
  · intro h
    exact ⟨fun i => ((key i).mpr (h i)).2, fun i => ((key i).mpr (h i)).1⟩

/-! Bounding box covering: every integer point with supercell-fractional
coordinates in the half-open unit cube lies in the enumerated box. -/

theorem foldl_min_le (t : List ℤ) :
    ∀ b : ℤ, t.foldl min b ≤ b ∧ ∀ a ∈ t, t.foldl min b ≤ a := by
  induction t with
  | nil =>
    intro b
    exact ⟨le_refl b, by simp⟩
  | cons c t ih =>
    intro b
    obtain ⟨h1, h2⟩ := ih (min b c)
    refine ⟨le_trans h1 (min_le_left b c), ?_⟩
    intro a ha
    rcases List.mem_cons.mp ha with rfl | ha
    · exact le_trans h1 (min_le_right b a)
    · exact h2 a ha

theorem foldl_max_ge (t : List ℤ) :
    ∀ b : ℤ, b ≤ t.foldl max b ∧ ∀ a ∈ t, a ≤ t.foldl max b := by
  induction t with
  | nil =>
    intro b
    exact ⟨le_refl b, by simp⟩
  | cons c t ih =>
    intro b
    obtain ⟨h1, h2⟩ := ih (max b c)
    refine ⟨le_trans (le_max_left b c) h1, ?_⟩
    intro a ha
    rcases List.mem_cons.mp ha with rfl | ha
    · exact le_trans (le_max_right b a) h1
    · exact h2 a ha

theorem intMin_le {l : List ℤ} {a : ℤ} (h : a ∈ l) : intMin l ≤ a := by
  cases l with
  | nil => simp at h
  | cons b t =>
    rcases List.mem_cons.mp h with rfl | ha
    · exact (foldl_min_le t a).1
    · exact (foldl_min_le t b).2 a ha

theorem le_intMax {l : List ℤ} {a : ℤ} (h : a ∈ l) : a ≤ intMax l := by
  cases l with
  | nil => simp at h
  | cons b t =>
    rcases List.mem_cons.mp h with rfl | ha
    · exact (foldl_max_ge t a).1
    · exact (foldl_max_ge t b).2 a ha

theorem mem_diagonalsL {dg : Fin 3 → ℤ} (h : ∀ j, dg j = 0 ∨ dg j = 1) :
    dg ∈ diagonalsL := by
  have hdg : dg = ![dg 0, dg 1, dg 2] := (vec3_eta dg).symm
  rcases h 0 with h0 | h0 <;> rcases h 1 with h1 | h1 <;> rcases h 2 with h2 | h2 <;>
    · rw [hdg, h0, h1, h2]
      simp [diagonalsL]

theorem vecMul_q_apply (f : Fin 3 → ℚ) (M : Matrix (Fin 3) (Fin 3) ℤ) (i : Fin 3) :
    Matrix.vecMul f (qMat M) i = ∑ j, f j * (M j i : ℚ) := by
  simp [Matrix.vecMul, Matrix.dotProduct, qMat]

theorem mem_allPoints_of_unit_frac {M : Matrix (Fin 3) (Fin 3) ℤ} (h0 : M.det ≠ 0)
    (x : Fin 3 → ℤ) (hx : ∀ i, 0 ≤ fracPoint M x i ∧ fracPoint M x i < 1) :
    x ∈ allPoints M := by
  rw [mem_allPoints]
  intro i
  have hxi : (x i : ℚ) = ∑ j, fracPoint M x j * (M j i : ℚ) := by
    have := congrFun (vecMul_fracPoint h0 x) i
    rw [← this, vecMul_q_apply]
  constructor
  · -- lower bound via the corner that picks the negative entries
    set dlow : Fin 3 → ℤ := fun j => if M j i < 0 then 1 else 0 with hdlow
    have hmem : Matrix.vecMul dlow M i ∈ cornerCoords M i :=
      List.mem_map_of_mem _ (mem_diagonalsL (fun j => by
        by_cases hj : M j i < 0 <;> simp [hdlow, hj]))
    have hmin : scMins M i ≤ Matrix.vecMul dlow M i := intMin_le hmem
    have hcorner : ((Matrix.vecMul dlow M) i : ℚ) = ∑ j, (dlow j : ℚ) * (M j i : ℚ) := by
      rw [congrFun (castVec_vecMul dlow M) i, vecMul_q_apply]
    have hsum : ((Matrix.vecMul dlow M) i : ℚ) ≤ (x i : ℚ) := by
      rw [hcorner, hxi]
      apply Finset.sum_le_sum
      intro j _hj
      by_cases hj : M j i < 0
      · have h1 : fracPoint M x j < 1 := (hx j).2
        have hMj : (M j i : ℚ) < 0 := by exact_mod_cast hj
        simp only [hdlow, if_pos hj, Int.cast_one, one_mul]
        nlinarith
      · have h1 : 0 ≤ fracPoint M x j := (hx j).1
        have hMj : (0 : ℚ) ≤ (M j i : ℚ) := by
          have : 0 ≤ M j i := by omega
          exact_mod_cast this
        simp only [hdlow, if_neg hj, Int.cast_zero, zero_mul]
        exact mul_nonneg h1 hMj
    have : ((scMins M i : ℤ) : ℚ) ≤ (x i : ℚ) :=
      le_trans (by exact_mod_cast hmin) hsum
    exact_mod_cast this
  · -- upper bound via the corner that picks the positive entries
    set dhigh : Fin 3 → ℤ := fun j => if 0 < M j i then 1 else 0 with hdhigh
    have hmem : Matrix.vecMul dhigh M i ∈ cornerCoords M i :=
      List.mem_map_of_mem _ (mem_diagonalsL (fun j => by
        by_cases hj : 0 < M j i <;> simp [hdhigh, hj]))
    have hmax : Matrix.vecMul dhigh M i ≤ intMax (cornerCoords M i) := le_intMax hmem
    have hcorner : ((Matrix.vecMul dhigh M) i : ℚ) = ∑ j, (dhigh j : ℚ) * (M j i : ℚ) := by
      rw [congrFun (castVec_vecMul dhigh M) i, vecMul_q_apply]
    have hsum : (x i : ℚ) ≤ ((Matrix.vecMul dhigh M) i : ℚ) := by
      rw [hcorner, hxi]
      apply Finset.sum_le_sum
      intro j _hj
      by_cases hj : 0 < M j i
      · have h1 : fracPoint M x j < 1 := (hx j).2
        have hMj : (0 : ℚ) < (M j i : ℚ) := by exact_mod_cast hj
        simp only [hdhigh, if_pos hj, Int.cast_one, one_mul]
        nlinarith
      · have h1 : 0 ≤ fracPoint M x j := (hx j).1
        have hMj : (M j i : ℚ) ≤ 0 := by
          have : M j i ≤ 0 := by omega
          exact_mod_cast this
        simp only [hdhigh, if_neg hj, Int.cast_zero, zero_mul]
        exact mul_nonpos_of_nonneg_of_nonpos h1 hMj
    have hle : (x i : ℚ) ≤ ((intMax (cornerCoords M i) : ℤ) : ℚ) :=
      le_trans hsum (by exact_mod_cast hmax)
    have : x i ≤ intMax (cornerCoords M i) := by exact_mod_cast hle
    rw [scMaxes]
    omega

/-! Cardinality of the quotient by the row lattice: the quotient of the free
module ℤ^3 by the range of an injective linear endomorphism has exactly
|det| elements.  Proved via the Smith normal form of the range submodule. -/

theorem card_quot_range_eq_natAbs_det {ι : Type} [Fintype ι] [DecidableEq ι]
    (φ : (ι → ℤ) →ₗ[ℤ] (ι → ℤ)) (hφ : Function.Injective φ) :
    Nat.card ((ι → ℤ) ⧸ (LinearMap.range φ).toAddSubgroup) =
      (LinearMap.det φ).natAbs := by
  classical
  obtain ⟨n, snf⟩ := (LinearMap.range φ).smithNormalForm (Pi.basisFun ℤ ι)
  have hidx := snf.toAddSubgroup_index_eq_pow_mul_prod
  let e : (ι → ℤ) ≃ₗ[ℤ] LinearMap.range φ := LinearEquiv.ofInjective φ hφ
  have hn : n = Fintype.card ι := by
    let bM' : Basis (Fin n) ℤ (ι → ℤ) := snf.bN.map e.symm
    have hcard := Fintype.card_congr (bM'.indexEquiv (Pi.basisFun ℤ ι))
    simpa using hcard
  have hprod : (LinearMap.range φ).toAddSubgroup.index =
      ∏ i : Fin n, (snf.a i).natAbs := by
    rw [hidx, show Fintype.card ι - n = 0 by omega]
    simp only [pow_zero, one_mul]
    refine Finset.prod_congr rfl (fun i _ => ?_)
    rw [Ideal.span_singleton_toAddSubgroup_eq_zmultiples, Int.index_zmultiples]
  have hbij : Function.Bijective snf.f :=
    (Fintype.bijective_iff_injective_and_card snf.f).mpr
      ⟨snf.f.injective, by simp [hn]⟩
  let gE : Fin n ≃ ι := Equiv.ofBijective snf.f hbij
  let e₀ : (ι → ℤ) ≃ₗ[ℤ] LinearMap.range φ := snf.bM.equiv snf.bN gE.symm
  let f₀ : (ι → ℤ) →ₗ[ℤ] (ι → ℤ) :=
    (LinearMap.range φ).subtype ∘ₗ (e₀ : (ι → ℤ) →ₗ[ℤ] LinearMap.range φ)
  have hf₀ : ∀ j, f₀ (snf.bM j) = snf.a (gE.symm j) • snf.bM j := by
    intro j
    have h1 : e₀ (snf.bM j) = snf.bN (gE.symm j) :=
      Basis.equiv_apply snf.bM j snf.bN gE.symm
    have h2 : snf.f (gE.symm j) = j := Equiv.apply_symm_apply gE j
    calc f₀ (snf.bM j)
        = ((e₀ (snf.bM j) : LinearMap.range φ) : ι → ℤ) := rfl
      _ = ((snf.bN (gE.symm j) : LinearMap.range φ) : ι → ℤ) := by rw [h1]
      _ = snf.a (gE.symm j) • snf.bM (snf.f (gE.symm j)) := snf.snf _
      _ = snf.a (gE.symm j) • snf.bM j := by rw [h2]
  have hmat : LinearMap.toMatrix snf.bM snf.bM f₀ =
      Matrix.diagonal (fun j => snf.a (gE.symm j)) := by
    ext i j
    rw [LinearMap.toMatrix_apply, hf₀ j]
    rw [map_smul, Basis.repr_self]
    by_cases h : i = j
    · subst h
      simp [Matrix.diagonal_apply_eq, Finsupp.single_apply]
    · simp [Matrix.diagonal_apply_ne _ h, Finsupp.single_apply, Ne.symm h]
  have hdet₀ : LinearMap.det f₀ = ∏ i : Fin n, snf.a i := by
    rw [← LinearMap.det_toMatrix snf.bM, hmat, Matrix.det_diagonal]
    exact Fintype.prod_equiv gE.symm _ _ (fun j => rfl)
  have hcomp : φ = f₀ ∘ₗ (e₀.symm.toLinearMap ∘ₗ e.toLinearMap) := by
    refine LinearMap.ext (fun x => ?_)
    show φ x = f₀ (e₀.symm (e x))
    have h3 : f₀ (e₀.symm (e x)) = ((e₀ (e₀.symm (e x)) : LinearMap.range φ) : ι → ℤ) := rfl
    rw [h3, e₀.apply_symm_apply]
    exact (LinearEquiv.ofInjective_apply φ x).symm
  have hunit : IsUnit (LinearMap.det (e₀.symm.toLinearMap ∘ₗ e.toLinearMap)) := by
    have h4 : e₀.symm.toLinearMap ∘ₗ e.toLinearMap =
        ((e.trans e₀.symm) : (ι → ℤ) ≃ₗ[ℤ] (ι → ℤ)).toLinearMap := rfl
    rw [h4]
    exact LinearEquiv.isUnit_det' _
  have hdetcomp : LinearMap.det φ =
      (∏ i : Fin n, snf.a i) * LinearMap.det (e₀.symm.toLinearMap ∘ₗ e.toLinearMap) := by
    conv_lhs => rw [hcomp]
    rw [LinearMap.det_comp, hdet₀]
  have habs : (∏ i : Fin n, snf.a i).natAbs = ∏ i : Fin n, (snf.a i).natAbs :=
    map_prod Int.natAbsHom snf.a Finset.univ
  rw [← AddSubgroup.index_eq_card, hprod, hdetcomp]
  obtain h1 | h1 := Int.isUnit_iff.mp hunit
  · rw [h1, mul_one, habs]
  · rw [h1, Int.natAbs_mul, habs]
    simp

/-! The filtered enumeration is a transversal of the row lattice of M. -/

theorem rowMap_injective {M : Matrix (Fin 3) (Fin 3) ℤ} (h0 : M.det ≠ 0) :
    Function.Injective (Matrix.toLin' M.transpose : (Fin 3 → ℤ) →ₗ[ℤ] (Fin 3 → ℤ)) := by
  intro z w hzw
  rw [Matrix.toLin'_apply, Matrix.toLin'_apply] at hzw
  have h := congrArg (Matrix.mulVec M.transpose.adjugate) hzw
  rw [Matrix.mulVec_mulVec, Matrix.mulVec_mulVec, Matrix.adjugate_mul,
    Matrix.smul_mulVec_assoc, Matrix.smul_mulVec_assoc, Matrix.one_mulVec,
    Matrix.one_mulVec] at h
  funext i
  have hi := congrFun h i
  simp only [Pi.smul_apply, smul_eq_mul, Matrix.det_transpose] at hi
  exact mul_left_cancel₀ h0 hi

theorem frac_unit_unique {M : Matrix (Fin 3) (Fin 3) ℤ} (h0 : M.det ≠ 0)
    {x y : Fin 3 → ℤ}
    (hx : ∀ i, 0 ≤ fracPoint M x i ∧ fracPoint M x i < 1)
    (hy : ∀ i, 0 ≤ fracPoint M y i ∧ fracPoint M y i < 1)
    (z : Fin 3 → ℤ) (hz : Matrix.vecMul z M = y - x) : x = y := by
  have hsub : fracPoint M y - fracPoint M x = fun i => (z i : ℚ) := by
    rw [← fracPoint_sub, ← hz, fracPoint_vecMul h0]
  have hz0 : z = 0 := by
    funext i
    simp only [Pi.zero_apply]
    have hi := congrFun hsub i
    simp only [Pi.sub_apply] at hi
    have h1 : (z i : ℚ) < 1 := by
      rw [← hi]
      have ha := (hy i).2
      have hb := (hx i).1
      linarith
    have h2 : (-1 : ℚ) < (z i : ℚ) := by
      rw [← hi]
      have ha := (hy i).1
      have hb := (hx i).2
      linarith
    have h3 : z i < 1 := by exact_mod_cast h1
    have h4 : -1 < z i := by exact_mod_cast h2
    omega
  have h5 : y - x = 0 := by
    rw [← hz, hz0, Matrix.zero_vecMul]
  exact (sub_eq_zero.mp h5).symm

theorem exists_unit_frac_rep {M : Matrix (Fin 3) (Fin 3) ℤ} (h0 : M.det ≠ 0)
    (y : Fin 3 → ℤ) :
    ∃ x : Fin 3 → ℤ, (∀ i, 0 ≤ fracPoint M x i ∧ fracPoint M x i < 1) ∧
      ∃ z : Fin 3 → ℤ, Matrix.vecMul z M = y - x := by
  set z : Fin 3 → ℤ := fun i => ⌊fracPoint M y i⌋ with hzdef
  refine ⟨y - Matrix.vecMul z M, ?_, z, (sub_sub_cancel y _).symm⟩
  intro i
  have hfx : fracPoint M (y - Matrix.vecMul z M) =
      fracPoint M y - fun j => (z j : ℚ) := by
    rw [fracPoint_sub, fracPoint_vecMul h0]
  have hi := congrFun hfx i
  simp only [Pi.sub_apply] at hi
  rw [hi, hzdef]
  constructor
  · have := Int.fract_nonneg (fracPoint M y i)
    rw [Int.fract] at this
    exact this
  · have := Int.fract_lt_one (fracPoint M y i)
    rw [Int.fract] at this
    exact this

theorem filtered_count {M : Matrix (Fin 3) (Fin 3) ℤ} (h0 : M.det ≠ 0)
    (hlt : M.det.natAbs < 10 ^ 10) :
    (((allPoints M).map (fracPoint M)).filter inCell).length = M.det.natAbs := by
  classical
  have hcard := card_quot_range_eq_natAbs_det
    (Matrix.toLin' M.transpose : (Fin 3 → ℤ) →ₗ[ℤ] (Fin 3 → ℤ)) (rowMap_injective h0)
  rw [LinearMap.det_toLin', Matrix.det_transpose] at hcard
  have hnd : ((allPoints M).filter (fun x => inCell (fracPoint M x))).Nodup :=
    (nodup_allPoints M).filter _
  have hlen : (((allPoints M).map (fracPoint M)).filter inCell).length =
      ((allPoints M).filter (fun x => inCell (fracPoint M x))).toFinset.card := by
    rw [List.toFinset_card_of_nodup hnd, ← List.countP_eq_length_filter,
      List.countP_map, List.countP_eq_length_filter]
    rfl
  have hmemS : ∀ x : Fin 3 → ℤ,
      x ∈ ((allPoints M).filter (fun x => inCell (fracPoint M x))).toFinset ↔
        ∀ i, 0 ≤ fracPoint M x i ∧ fracPoint M x i < 1 := by
    intro x
    rw [List.mem_toFinset, List.mem_filter]
    constructor
    · rintro ⟨_hmem, hcell⟩
      exact (inCell_fracPoint_iff h0 hlt x).mp hcell
    · intro hx
      exact ⟨mem_allPoints_of_unit_frac h0 x hx,
        (inCell_fracPoint_iff h0 hlt x).mpr hx⟩
  have hmemH : ∀ v : Fin 3 → ℤ,
      v ∈ (LinearMap.range (Matrix.toLin' M.transpose :
        (Fin 3 → ℤ) →ₗ[ℤ] (Fin 3 → ℤ))).toAddSubgroup ↔
        ∃ z, Matrix.vecMul z M = v := by
    intro v
    rw [Submodule.mem_toAddSubgroup, LinearMap.mem_range]
    constructor
    · rintro ⟨z, hz⟩
      exact ⟨z, by rw [← hz, Matrix.toLin'_apply, Matrix.mulVec_transpose]⟩
    · rintro ⟨z, hz⟩
      exact ⟨z, by rw [Matrix.toLin'_apply, Matrix.mulVec_transpose, hz]⟩
  have hbij : Function.Bijective
      (fun x : {v // v ∈ ((allPoints M).filter
          (fun x => inCell (fracPoint M x))).toFinset} =>
        (QuotientAddGroup.mk x.val :
          (Fin 3 → ℤ) ⧸ (LinearMap.range (Matrix.toLin' M.transpose :
            (Fin 3 → ℤ) →ₗ[ℤ] (Fin 3 → ℤ))).toAddSubgroup)) := by
    constructor
    · rintro ⟨x, hx⟩ ⟨y, hy⟩ hxy
      have h1 := QuotientAddGroup.eq.mp hxy
      rw [neg_add_eq_sub] at h1
      obtain ⟨z, hz⟩ := (hmemH _).mp h1
      exact Subtype.ext (frac_unit_unique h0 ((hmemS x).mp hx) ((hmemS y).mp hy) z hz)
    · intro q
      obtain ⟨y, rfl⟩ := QuotientAddGroup.mk_surjective q
      obtain ⟨x, hx, z, hz⟩ := exists_unit_frac_rep h0 y
      refine ⟨⟨x, (hmemS x).mpr hx⟩, ?_⟩
      show QuotientAddGroup.mk x = QuotientAddGroup.mk y
      rw [QuotientAddGroup.eq, neg_add_eq_sub]
      exact (hmemH _).mpr ⟨z, hz⟩
  have hc := Nat.card_congr (Equiv.ofBijective _ hbij)
  rw [hlen, ← Nat.card_eq_finsetCard, hc, hcard]

/-! Symbolic counting for the diag(10^10, 1, 1) counterexample: the point
(10^10 - 1, 0, 0) has fractional coordinate 1 - 1e-10 on the first axis and
is excluded by the strict frac < 1 - 1e-10 comparison, so only 10^10 - 1
points survive and the count check fails. -/

theorem forall_fin_three {P : Fin 3 → Prop} : (∀ i, P i) ↔ P 0 ∧ P 1 ∧ P 2 :=
  ⟨fun h => ⟨h 0, h 1, h 2⟩, fun h i => by
    obtain ⟨h0, h1, h2⟩ := h
    fin_cases i <;> assumption⟩

theorem countP_const_false {α : Type _} (l : List α) :
    l.countP (fun _ => false) = 0 := by
  induction l with
  | nil => rfl
  | cons a t ih =>
    rw [List.countP_cons, ih]
    simp

theorem countP_box_inner2 (r2 : List ℤ) (b0 b1 b2 : ℤ → Bool) (a b : ℤ) :
    List.countP (fun v => b0 (v 0) && (b1 (v 1) && b2 (v 2)))
      (r2.map (fun x2 => (![a, b, x2] : Fin 3 → ℤ))) =
      (if b0 a = true then 1 else 0) *
        ((if b1 b = true then 1 else 0) * r2.countP b2) := by
  have hcomp : ((fun v : Fin 3 → ℤ => b0 (v 0) && (b1 (v 1) && b2 (v 2))) ∘
      (fun x2 => (![a, b, x2] : Fin 3 → ℤ))) =
      fun x2 => b0 a && (b1 b && b2 x2) := by
    funext x2
    simp
  rw [List.countP_map, hcomp]
  rcases Bool.eq_false_or_eq_true (b0 a) with hA | hA <;>
    rcases Bool.eq_false_or_eq_true (b1 b) with hB | hB <;>
      simp [hA, hB, countP_const_false]

theorem countP_box_inner (r1 r2 : List ℤ) (b0 b1 b2 : ℤ → Bool) (a : ℤ) :
    List.countP (fun v => b0 (v 0) && (b1 (v 1) && b2 (v 2)))
      (r1.flatMap (fun x1 => r2.map (fun x2 => (![a, x1, x2] : Fin 3 → ℤ)))) =
      (if b0 a = true then 1 else 0) * (r1.countP b1 * r2.countP b2) := by
  induction r1 with
  | nil => simp
  | cons b t1 ih1 =>
    rw [List.flatMap_cons, List.countP_append, ih1, List.countP_cons,
      countP_box_inner2]
    ring

theorem countP_box (r0 r1 r2 : List ℤ) (b0 b1 b2 : ℤ → Bool) :
    List.countP (fun v => b0 (v 0) && (b1 (v 1) && b2 (v 2)))
      (r0.flatMap (fun x0 => r1.flatMap (fun x1 =>
        r2.map (fun x2 => (![x0, x1, x2] : Fin 3 → ℤ))))) =
      r0.countP b0 * (r1.countP b1 * r2.countP b2) := by
  induction r0 with
  | nil => simp
  | cons a t ih =>
    rw [List.flatMap_cons, List.countP_append, ih, List.countP_cons,
      countP_box_inner]
    ring

theorem countP_range_lt (n m : ℕ) :
    (List.range n).countP (fun k => decide (k < m)) = min n m := by
  induction n with
  | zero => simp
  | succ n ih =>
    rw [List.range_succ, List.countP_append, ih]
    have hone : List.countP (fun k => decide (k < m)) [n] =
        if n < m then 1 else 0 := by
      simp [List.countP_cons, List.countP_nil]
    rw [hone]
    by_cases h : n < m <;> simp [h] <;> omega

theorem countP_intRange_window (N d : ℤ) (hd : 0 ≤ d) (hN : d ≤ N) :
    (intRange 0 N).countP (fun x => decide (0 ≤ x ∧ x < d)) = d.toNat := by
  unfold intRange
  rw [List.countP_map]
  have hc : List.countP ((fun x => decide (0 ≤ x ∧ x < d)) ∘
      (fun k : ℕ => (0 : ℤ) + (k : ℤ))) (List.range ((N : ℤ) - 0).toNat) =
      List.countP (fun k : ℕ => decide (k < d.toNat)) (List.range ((N : ℤ) - 0).toNat) := by
    refine List.countP_congr (fun k _ => ?_)
    simp only [Function.comp_apply, decide_eq_true_eq]
    omega
  rw [hc, countP_range_lt]
  omega

theorem fracPoint_sum (M : Matrix (Fin 3) (Fin 3) ℤ) (v : Fin 3 → ℤ) (i : Fin 3) :
    fracPoint M v i = ∑ j, (v j : ℚ) * qInv (qMat M) j i := by
  rw [fracPoint]
  simp [Matrix.vecMul, Matrix.dotProduct]

theorem bigDiag_frac0 (v : Fin 3 → ℤ) :
    fracPoint bigDiag v 0 = (v 0 : ℚ) / 10000000000 := by
  rw [fracPoint_sum, Fin.sum_univ_three,
    show qInv (qMat bigDiag) 0 0 = 1/10000000000 from by decide,
    show qInv (qMat bigDiag) 1 0 = 0 from by decide,
    show qInv (qMat bigDiag) 2 0 = 0 from by decide]
  ring

theorem bigDiag_frac1 (v : Fin 3 → ℤ) : fracPoint bigDiag v 1 = (v 1 : ℚ) := by
  rw [fracPoint_sum, Fin.sum_univ_three,
    show qInv (qMat bigDiag) 0 1 = 0 from by decide,
    show qInv (qMat bigDiag) 1 1 = 1 from by decide,
    show qInv (qMat bigDiag) 2 1 = 0 from by decide]
  ring

theorem bigDiag_frac2 (v : Fin 3 → ℤ) : fracPoint bigDiag v 2 = (v 2 : ℚ) := by
  rw [fracPoint_sum, Fin.sum_univ_three,
    show qInv (qMat bigDiag) 0 2 = 0 from by decide,
    show qInv (qMat bigDiag) 1 2 = 0 from by decide,
    show qInv (qMat bigDiag) 2 2 = 1 from by decide]
  ring

theorem bigDiag_inCell (v : Fin 3 → ℤ) :
    inCell (fracPoint bigDiag v) = true ↔
      ((-1 ≤ v 0 ∧ v 0 < 10000000000 - 1) ∧
        (0 ≤ v 1 ∧ v 1 < 1) ∧ (0 ≤ v 2 ∧ v 2 < 1)) := by
  rw [inCell, decide_eq_true_iff]
  have hD : (0 : ℚ) < 10000000000 := by norm_num
  have h0l : (-eps10 ≤ (v 0 : ℚ) / 10000000000) ↔ (-1 ≤ v 0) := by
    rw [le_div_iff₀ hD]
    constructor
    · intro h
      have : (-1 : ℚ) ≤ (v 0 : ℚ) := by
        have he : -eps10 * 10000000000 = (-1 : ℚ) := by norm_num [eps10]
        linarith [he ▸ h]
      exact_mod_cast this
    · intro h
      have h1 : (-1 : ℚ) ≤ (v 0 : ℚ) := by exact_mod_cast h
      have he : -eps10 * 10000000000 = (-1 : ℚ) := by norm_num [eps10]
      linarith
  have h0u : ((v 0 : ℚ) / 10000000000 < 1 - eps10) ↔ (v 0 < 10000000000 - 1) := by
    rw [div_lt_iff₀ hD]
    have he : (1 - eps10) * 10000000000 = (9999999999 : ℚ) := by norm_num [eps10]
    rw [he]
    constructor
    · intro h
      have : v 0 < 9999999999 := by exact_mod_cast h
      omega
    · intro h
      have h1 : v 0 < 9999999999 := by omega
      exact_mod_cast h1
  have h1l : ∀ w : ℤ, (-eps10 ≤ (w : ℚ)) ↔ (0 ≤ w) := by
    intro w
    constructor
    · intro h
      by_contra hw
      push_neg at hw
      have h1 : w ≤ -1 := by omega
      have h2 : (w : ℚ) ≤ -1 := by exact_mod_cast h1
      have : (-eps10 : ℚ) ≤ -1 := le_trans h h2
      norm_num [eps10] at this
    · intro h
      have h1 : (0 : ℚ) ≤ (w : ℚ) := by exact_mod_cast h
      have : (0 : ℚ) < eps10 := by norm_num [eps10]
      linarith
  have h1u : ∀ w : ℤ, ((w : ℚ) < 1 - eps10) ↔ (w < 1) := by
    intro w
    constructor
    · intro h
      have h1 : (w : ℚ) < 1 := by
        have : (0 : ℚ) < eps10 := by norm_num [eps10]
        linarith
      exact_mod_cast h1
    · intro h
      have h1 : w ≤ 0 := by omega
      have h2 : (w : ℚ) ≤ 0 := by exact_mod_cast h1
      have : (1 - eps10 : ℚ) > 0 := by norm_num [eps10]
      linarith
  rw [forall_fin_three, forall_fin_three, bigDiag_frac0, bigDiag_frac1,
    bigDiag_frac2]
  constructor
  · rintro ⟨⟨hu0, hu1, hu2⟩, hl0, hl1, hl2⟩
    exact ⟨⟨h0l.mp hl0, h0u.mp hu0⟩, ⟨(h1l _).mp hl1, (h1u _).mp hu1⟩,
      ⟨(h1l _).mp hl2, (h1u _).mp hu2⟩⟩
  · rintro ⟨⟨ha, hb⟩, ⟨hc, hd⟩, ⟨he, hf⟩⟩
    exact ⟨⟨h0u.mpr hb, (h1u _).mpr hd, (h1u _).mpr hf⟩,
      h0l.mpr ha, (h1l _).mpr hc, (h1l _).mpr he⟩

theorem bigDiag_count :
    (((allPoints bigDiag).map (fracPoint bigDiag)).filter inCell).length =
      9999999999 := by
  rw [← List.countP_eq_length_filter, List.countP_map]
  have hm0 : scMins bigDiag 0 = 0 := by decide
  have hM0 : scMaxes bigDiag 0 = 10000000001 := by decide
  have hm1 : scMins bigDiag 1 = 0 := by decide
  have hM1 : scMaxes bigDiag 1 = 2 := by decide
  have hm2 : scMins bigDiag 2 = 0 := by decide
  have hM2 : scMaxes bigDiag 2 = 2 := by decide
  have hpred : List.countP ((inCell ∘ fracPoint bigDiag)) (allPoints bigDiag) =
      List.countP (fun v : Fin 3 → ℤ =>
        (fun x => decide (0 ≤ x ∧ x < 9999999999)) (v 0) &&
          ((fun x => decide (0 ≤ x ∧ x < 1)) (v 1) &&
            (fun x => decide (0 ≤ x ∧ x < 1)) (v 2))) (allPoints bigDiag) := by
    refine List.countP_congr (fun v hv => ?_)
    have hv0 : 0 ≤ v 0 := by
      have := (mem_allPoints.mp hv 0).1
      omega
    simp only [Function.comp_apply, Bool.and_eq_true, decide_eq_true_eq]
    rw [bigDiag_inCell]
    omega
  rw [hpred]
  rw [show allPoints bigDiag =
      (intRange 0 10000000001).flatMap (fun a =>
        (intRange 0 2).flatMap (fun b =>
          (intRange 0 2).map (fun c => (![a, b, c] : Fin 3 → ℤ)))) from by
    rw [allPoints, hm0, hM0, hm1, hM1, hm2, hM2]]
  rw [countP_box (intRange 0 10000000001) (intRange 0 2) (intRange 0 2)
    (fun x => decide (0 ≤ x ∧ x < 9999999999)) (fun x => decide (0 ≤ x ∧ x < 1))
    (fun x => decide (0 ≤ x ∧ x < 1))]
  have hc0 : (intRange 0 10000000001).countP
      (fun x => decide (0 ≤ x ∧ x < 9999999999)) = 9999999999 := by
    have h1 : (0 : ℤ) ≤ 9999999999 := by norm_num
    have h2 : (9999999999 : ℤ) ≤ 10000000001 := by norm_num
    have h3 := countP_intRange_window 10000000001 9999999999 h1 h2
    simpa using h3
  have hc1 : (intRange 0 2).countP (fun x => decide (0 ≤ x ∧ x < 1)) = 1 := by
    decide
  rw [hc0, hc1]

/-- C2 counterexample: for the integer matrix diag(10^10, 1, 1) — nonzero
determinant — the point (10^10 - 1, 0, 0) has first fractional coordinate
exactly 1 - 1e-10 and is excluded by the strict tolerance comparison, so only
10^10 - 1 of the 10^10 lattice points survive and the function raises the
mismatch error instead of returning. -/
theorem lattice_points_big_det_cex :
    lattice_points_in_supercell bigDiag = Except.error mismatchMsg := by
  have hne : ¬ ((((allPoints bigDiag).map (fracPoint bigDiag)).filter inCell).length =
      bigDiag.det.natAbs) := by
    rw [bigDiag_count, show bigDiag.det.natAbs = 10000000000 from by decide]
    norm_num
  rw [lattice_points_in_supercell, if_neg hne]

section ConcreteEvaluations

set_option maxRecDepth 40000 in
/-- Concrete evaluation of the enumeration for the supercell matrix
[[2,0,0],[0,1,0],[0,0,1]]: exactly the two fractional points (0,0,0) and
(1/2,0,0), in enumeration order. -/
theorem filtered_concrete :
    ((allPoints !![2, 0, 0; 0, 1, 0; 0, 0, 1]).map
        (fracPoint !![2, 0, 0; 0, 1, 0; 0, 0, 1])).filter inCell =
      [![0, 0, 0], ![1/2, 0, 0]] := by
  decide

/-- C2 (amended): for every 3x3 integer matrix M with nonzero determinant and
|det M| < 10^10, lattice_points_in_supercell(M) returns successfully and the
number of returned points equals round(|det M|); whenever the function does
return (for any integer matrix), the returned count equals round(|det|), a
mismatch having raised instead; and for M = [[2,0,0],[0,1,0],[0,0,1]] the
result is exactly the two points (0,0,0) and (0.5,0,0).  The determinant
bound is necessary: with |det| ≥ 10^10 the 1e-10 tolerance can exclude valid
points (see the counterexample), so the original unbounded claim fails. -/
theorem lattice_points_in_supercell_spec (M : Matrix (Fin 3) (Fin 3) ℤ)
    (h0 : M.det ≠ 0) (hlt : M.det.natAbs < 10 ^ 10) :
    (∃ pts, lattice_points_in_supercell M = Except.ok pts ∧
        pts.length = M.det.natAbs) ∧
      (∀ (A : Matrix (Fin 3) (Fin 3) ℤ) (pts : List (Fin 3 → ℚ)),
        lattice_points_in_supercell A = Except.ok pts →
          pts.length = A.det.natAbs) ∧
      lattice_points_in_supercell !![2, 0, 0; 0, 1, 0; 0, 0, 1] =
        Except.ok [![0, 0, 0], ![1/2, 0, 0]] := by
  refine ⟨?_, ?_, ?_⟩
  · have hc := filtered_count h0 hlt
    rw [lattice_points_in_supercell, if_pos hc]
    exact ⟨_, rfl, hc⟩
  · intro A pts h
    rw [lattice_points_in_supercell] at h
    by_cases hc : (((allPoints A).map (fracPoint A)).filter inCell).length =
        A.det.natAbs
    · rw [if_pos hc] at h
      simp only [Except.ok.injEq] at h
      rw [← h]
      exact hc
    · rw [if_neg hc] at h
      exact absurd h (by simp)
  · rw [lattice_points_in_supercell, filtered_concrete, if_pos (by decide)]

/-- Witness for the C2 theorem at the concrete supercell matrix
[[2,0,0],[0,1,0],[0,0,1]], whose determinant 2 is nonzero and below 10^10. -/
theorem lattice_points_in_supercell_spec_witness :
    (!![2, 0, 0; 0, 1, 0; 0, 0, 1] : Matrix (Fin 3) (Fin 3) ℤ).det ≠ 0 ∧
      (!![2, 0, 0; 0, 1, 0; 0, 0, 1] : Matrix (Fin 3) (Fin 3) ℤ).det.natAbs <
        10 ^ 10 ∧
      ((∃ pts, lattice_points_in_supercell !![2, 0, 0; 0, 1, 0; 0, 0, 1] =
            Except.ok pts ∧
          pts.length =
            (!![2, 0, 0; 0, 1, 0; 0, 0, 1] :
              Matrix (Fin 3) (Fin 3) ℤ).det.natAbs) ∧
        (∀ (A : Matrix (Fin 3) (Fin 3) ℤ) (pts : List (Fin 3 → ℚ)),
          lattice_points_in_supercell A = Except.ok pts →
            pts.length = A.det.natAbs) ∧
        lattice_points_in_supercell !![2, 0, 0; 0, 1, 0; 0, 0, 1] =
          Except.ok [![0, 0, 0], ![1/2, 0, 0]]) :=
  ⟨by decide, by decide,
    lattice_points_in_supercell_spec !![2, 0, 0; 0, 1, 0; 0, 0, 1]
      (by decide) (by decide)⟩

set_option maxRecDepth 4000 in
/-- C8: Simplex.volume is |det(augmented matrix)| / d! for a d-simplex, and
the unit right tetrahedron (the three unit axis vectors plus the origin) has
volume 1/6. -/
theorem simplex_volume_spec :
    (∀ (d : ℕ) (coords : Matrix (Fin (d+1)) (Fin d) ℚ),
        simplexVolume d coords = |(simplexAug d coords).det| / (Nat.factorial d : ℚ)) ∧
      simplexVolume 3 unitTetra = 1/6 := by
  refine ⟨fun d coords => rfl, ?_⟩
  decide

set_option maxRecDepth 4000 in
/-- C7 witness: the round trip applied to the unit right triangle in the
plane at the interior point (1/3, 1/4). -/
theorem bary_coords_round_trip_witness :
    (simplexAug 2 !![1, 0; 0, 1; 0, 0]).det ≠ 0 ∧
      point_from_bary_coords 2 !![1, 0; 0, 1; 0, 0]
        (bary_coords 2 !![1, 0; 0, 1; 0, 0] ![1/3, 1/4]) = ![1/3, 1/4] :=
  ⟨by decide, bary_coords_round_trip 2 !![1, 0; 0, 1; 0, 0] ![1/3, 1/4] (by decide)⟩

/-- C6 counterexample: the one-vertex simplices [[0]] and [[1e-9]] compare
equal under __eq__ (np.allclose within default tolerances) although neither
vertex list is a permutation of the other, so equality is not exact. -/
theorem simplex_eq_tolerance_cex :
    simplex_eq [[(0:ℚ)]] [[(1:ℚ)/1000000000]] = some true ∧
      ¬ List.Perm [[(0:ℚ)]] [[(1:ℚ)/1000000000]] := by
  constructor
  · decide
  · decide

/-- C10 counterexample: a one-vertex simplex broadcasts against a two-vertex
simplex, __eq__ returns True, yet the hashes (the vertex counts 1 and 2)
differ, refuting hash-consistency of equality. -/
theorem simplex_hash_broadcast_cex :
    simplex_eq [[(0:ℚ), 0]] [[(0:ℚ), 0], [0, 0]] = some true ∧
      simplex_hash [[(0:ℚ), 0]] ≠ simplex_hash [[(0:ℚ), 0], [0, 0]] := by
  constructor
  · decide
  · decide

/-- C10 witness: hash agreement applied to two equal one-vertex simplices. -/
theorem simplex_hash_spec_witness :
    simplex_eq [[(0:ℚ)]] [[(0:ℚ)]] = some true ∧
      simplex_hash [[(0:ℚ)]] = simplex_hash [[(0:ℚ)]] :=
  ⟨by decide, simplex_hash_spec.2 [[(0:ℚ)]] [[(0:ℚ)]] (by decide) rfl⟩

/-- C4 counterexample: at x = max(x_values) = 2, a point of the claimed
closed in-range interval [0, 2], the function raises the range error. -/
theorem get_linear_interpolated_value_at_max_cex :
    get_linear_interpolated_value [0, 2] [0, 4] 2 = Except.error outOfRangeMsg := by
  simp only [get_linear_interpolated_value, interpValue, interpIdx, interpIndices,
    interpArr_concrete]
  rfl

/-- C4 witness: the amended theorem applied to the dataset {(0,0),(2,4)} at
x = 1, with min 0 and max 2. -/
theorem get_linear_interpolated_value_error_iff_witness :
    ((∃ e, get_linear_interpolated_value [0, 2] [0, 4] 1 = Except.error e) ↔
      ((1 : ℚ) < 0 ∨ (2 : ℚ) ≤ 1)) ∧
      get_linear_interpolated_value [0, 2] [0, 4] 1 = Except.ok 2 :=
  get_linear_interpolated_value_error_iff [0, 2] [0, 4] 1 0 2 rfl (by decide)
    (by decide) (by decide) (by decide)

/-- C5 witness: the theorem applied to a one-point subset matching the
one-point superset exactly, with the default tolerance. -/
theorem coord_list_mapping_ok_witness :
    ([0] : List ℕ).length = [zeroVec 3].length ∧
      (∀ j ∈ ([0] : List ℕ), j < [zeroVec 3].length) ∧
      ((∀ k, k < [zeroVec 3].length → ∀ i,
          npIsclose ([zeroVec 3].getD k (zeroVec 3) i)
            ([zeroVec 3].getD (([0] : List ℕ).getD k 0) (zeroVec 3) i)
            (1/100000000) = true) ∨
        is_coord_subset [zeroVec 3] [zeroVec 3] npAtol = true) ∧
      coord_list_mapping [(fun _ => 5 : Fin 3 → ℚ)] [zeroVec 3] (1/100000000) =
        Except.error duplicatesMsg :=
  coord_list_mapping_ok [zeroVec 3] [zeroVec 3] (1/100000000) [0] (by rfl)

/-- C5 counterexample to the original claim: with atol = 0, subset
[[1,1,1],[5e-9,0,0]] and superset [[1,1,1],[1.00001,1,1],[0,0,0]] the rtol
term lets the first subset row double-match (superset rows 0 and 1) while the
second row matches nothing, so the reconstruction is the misaligned pair
(rows 0 and 1 of the superset), np.allclose against the subset fails, yet the
is_coord_subset fallback at its fixed default 1e-8 passes (5e-9 is within
1e-8 of the origin row) and the shape check passes, so the function returns
the mapping [0, 1] without raising although the reconstructed second row
[1.00001,1,1] is nowhere near the subset row [5e-9,0,0]. -/
theorem coord_list_mapping_misaligned_cex :
    coord_list_mapping
        ([![1, 1, 1], ![1/200000000, 0, 0]] : List (Fin 3 → ℚ))
        [![1, 1, 1], ![100001/100000, 1, 1], ![0, 0, 0]] 0 =
      Except.ok [0, 1] ∧
      cmResult ([![1, 1, 1], ![1/200000000, 0, 0]] : List (Fin 3 → ℚ))
        [![1, 1, 1], ![100001/100000, 1, 1], ![0, 0, 0]] 0 =
        [![1, 1, 1], ![100001/100000, 1, 1]] ∧
      ¬ (∀ i, npIsclose ((![1/200000000, 0, 0] : Fin 3 → ℚ) i)
          ((![100001/100000, 1, 1] : Fin 3 → ℚ) i) 0 = true) :=
  ⟨by rfl, by rfl, by decide⟩

/-- C1 counterexample: pbc_diff((0.5, 0.5, 0.5), (0, 0, 0)) has first component
exactly 1/2, which is not in the half-open interval [-0.5, 0.5). -/
theorem pbc_diff_half_cex :
    pbc_diff (fun _ => 1/2) (fun _ => 0) (fun _ => true) 0 = 1/2 ∧
      ¬ pbc_diff (fun _ => 1/2) (fun _ => 0) (fun _ => true) 0 < 1/2 := by
  constructor
  · decide
  · decide

/-- C1 witness: the bounds theorem applied at concrete fully periodic input. -/
theorem pbc_diff_bounds_witness :
    (fun _ => true : Fin 3 → Bool) 0 = true ∧
      (-(1/2) ≤ pbc_diff (fun _ => 1/10) (fun _ => 3/10) (fun _ => true) 0 ∧
        pbc_diff (fun _ => 1/10) (fun _ => 3/10) (fun _ => true) 0 ≤ 1/2) :=
  ⟨rfl, pbc_diff_bounds _ _ _ 0 rfl⟩

/-- C3 counterexample: with atol = 0 the strict comparison |diff| < atol never
holds, so a list containing the query point exactly yields no indices at all,
contradicting the claim for atol = 0. -/
theorem find_in_coord_list_atol_zero_cex :
    find_in_coord_list [zeroVec 3] (zeroVec 3) 0 = [] ∧
      ¬ 0 ∈ find_in_coord_list [zeroVec 3] (zeroVec 3) 0 := by
  constructor
  · decide
  · decide

/-- C3 witness: the amended theorem applied at a concrete one-point list with
the default tolerance 1e-8. -/
theorem find_in_coord_list_exact_mem_witness :
    (0 : ℚ) < 1/100000000 ∧
      0 ∈ find_in_coord_list [zeroVec 3] (zeroVec 3) (1/100000000) :=
  ⟨by decide,
    find_in_coord_list_exact_mem [zeroVec 3] (zeroVec 3) (1/100000000) 0
      (by decide) (by decide) (by decide)⟩

end ConcreteEvaluations

end Coord
